import Mathlib

/-!
Shallow embedding of the dynamic-array implementation (RawMemory + Vector).

Raw storage is modelled as a list of slots: `none` is uninitialized raw
memory, `some x` a live constructed object holding the value `x`.  The
arena capacity is the length of the slot list.  Iterators are modelled as
slot indices (the offset from `begin()`).
-/

set_option linter.unusedVariables false

namespace Cpp

variable {α : Type}

/-- One arena's storage: `none` models an uninitialized slot, `some x` a live
object with value `x`.  Capacity is the list length. -/
abbrev Slots (α : Type) := List (Option α)

/-- Applies `f` at every position of the list, passing the absolute slot index
(counting from `k`). -/
def mapIdxFrom (k : Nat) (f : Nat → Option α → Option α) : Slots α → Slots α
  | [] => []
  | v :: rest => f k v :: mapIdxFrom (k + 1) f rest

/-- `std::uninitialized_copy_n` / `std::uninitialized_move_n` from
`src[srcLo, srcLo+n)` into `dst[dstLo, dstLo+n)`.  The source and destination
arenas are distinct objects, so the writes are independent slot updates.
(Moved-from slots keep their value: for the value types tracked here a
moved-from object is still live.) -/
def copyFrom (dst src : Slots α) (srcLo dstLo n : Nat) : Slots α :=
  mapIdxFrom 0
    (fun i v =>
      if dstLo ≤ i ∧ i < dstLo + n then src.getD (srcLo + (i - dstLo)) none else v)
    dst

/-- Writes `val` into every slot with index in `[lo, hi)`: models
`std::destroy_n` (`val = none`) and `std::uninitialized_value_construct_n`
(`val = some default`). -/
def fillRange (dst : Slots α) (lo hi : Nat) (val : Option α) : Slots α :=
  mapIdxFrom 0 (fun i v => if lo ≤ i ∧ i < hi then val else v) dst

/-- The loop of `std::move_backward`: `n` pending moves remain, the next source
index is `last - 1` and the next destination index is `dlast - 1`; each step
reads the *current* contents of the source slot, exactly as the real loop
`*(--d_last) = std::move(*(--last))` does on overlapping ranges. -/
def moveBackwardGo : Nat → Slots α → Nat → Nat → Slots α
  | 0, s, _, _ => s
  | n + 1, s, last, dlast =>
      moveBackwardGo n (s.set (dlast - 1) (s.getD (last - 1) none)) (last - 1) (dlast - 1)

/-- `std::move_backward(first, last, dlast)` on slot indices. -/
def moveBackward (s : Slots α) (first last dlast : Nat) : Slots α :=
  moveBackwardGo (last - first) s last dlast

/-- The values of the first `n` slots in order, skipping uninitialized ones. -/
def readElems (s : Slots α) : Nat → List α
  | 0 => []
  | n + 1 => readElems s n ++ (s.getD n none).toList

/-- `RawMemory<T>`: an owning pointer (modelled as an optional abstract
address) plus the slot capacity. -/
structure RawMemory where
  buffer_ : Option Nat
  capacity_ : Nat
deriving DecidableEq, Repr

/-- `RawMemory::Allocate`: null for `n = 0`, otherwise the given fresh
address. -/
def RawMemory.Allocate (n : Nat) (addr : Nat) : Option Nat :=
  if n ≠ 0 then some addr else none

/-- `RawMemory(size_t capacity)`: `buffer_ = Allocate(capacity)`. -/
def RawMemory.ofCapacity (capacity : Nat) (addr : Nat) : RawMemory :=
  ⟨RawMemory.Allocate capacity addr, capacity⟩

/-- `RawMemory::Swap`: exchanges `buffer_` and `capacity_` field-wise, i.e. the
two objects trade states. -/
def RawMemory.Swap (a b : RawMemory) : RawMemory × RawMemory := (b, a)

/-- `RawMemory(RawMemory&&)`: takes the source's fields and nulls the source.
Returns (constructed object, source afterwards). -/
def RawMemory.moveCtor (other : RawMemory) : RawMemory × RawMemory :=
  (⟨other.buffer_, other.capacity_⟩, ⟨none, 0⟩)

/-- `RawMemory::operator=(RawMemory&&)`: the source text calls the
pseudo-destructor `buffer_.~RawMemory()` on the *pointer* member — ill-formed
if ever instantiated, and at best a no-op that frees nothing — then sets
`capacity_ = 0` and calls `Swap(rhs)`.  Modelled with the destructor call as a
no-op.  `same` models `this == &rhs`; returns (self afterwards, rhs
afterwards). -/
def RawMemory.moveAssign (self rhs : RawMemory) (same : Bool) : RawMemory × RawMemory :=
  if same then (self, rhs)
  else (⟨rhs.buffer_, rhs.capacity_⟩, ⟨self.buffer_, 0⟩)

/-- The arena invariant: the address is non-null iff the capacity is
positive. -/
def RawMemory.Invariant (r : RawMemory) : Prop :=
  r.buffer_.isSome = true ↔ 0 < r.capacity_

/-- `Vector<T>`: `data_` is the owned arena's slots (capacity = length),
`size_` the live-element count. -/
structure Vector (α : Type) where
  data_ : Slots α
  size_ : Nat
deriving DecidableEq, Repr

/-- `Vector::Size`. -/
def Vector.Size (v : Vector α) : Nat := v.size_

/-- `Vector::Capacity` (= `data_.Capacity()`). -/
def Vector.Capacity (v : Vector α) : Nat := v.data_.length

/-- The observable element sequence: values of slots `[0, size_)`. -/
def Vector.elems (v : Vector α) : List α := readElems v.data_ v.size_

/-- The container invariant: `size_ ≤ capacity`, slots `[0, size_)` live,
slots `[size_, capacity)` uninitialized. -/
def Vector.Inv (v : Vector α) : Prop :=
  v.size_ ≤ v.data_.length ∧
  (∀ i, i < v.size_ → (v.data_.getD i none).isSome = true) ∧
  (∀ i, i < v.data_.length → v.size_ ≤ i → v.data_.getD i none = none)

instance [DecidableEq α] (v : Vector α) : Decidable v.Inv :=
  inferInstanceAs (Decidable (v.size_ ≤ v.data_.length ∧
    (∀ i, i < v.size_ → (v.data_.getD i none).isSome = true) ∧
    (∀ i, i < v.data_.length → v.size_ ≤ i → v.data_.getD i none = none)))

/-- `Vector()`: default arena (null, capacity 0), size 0. -/
def Vector.empty : Vector α := ⟨[], 0⟩

/-- `Vector(size_t size)`: arena of capacity `n`,
`std::uninitialized_value_construct_n` makes `n` default-constructed live
elements. -/
def Vector.sized [Inhabited α] (n : Nat) : Vector α :=
  ⟨List.replicate n (some default), n⟩

/-- `Vector(const Vector&)`: arena of capacity `other.size_`, then
`std::uninitialized_copy_n` of the `other.size_` live elements. -/
def Vector.copyCtor (other : Vector α) : Vector α :=
  ⟨copyFrom (List.replicate other.size_ none) other.data_ 0 0 other.size_, other.size_⟩

/-- `Vector(Vector&&)`: `Swap(other)` against the default-constructed
destination.  Returns (constructed object, source afterwards). -/
def Vector.moveCtor (other : Vector α) : Vector α × Vector α :=
  (⟨other.data_, other.size_⟩, ⟨[], 0⟩)

/-- `Vector::Swap`: `data_.Swap(other.data_)` plus `std::swap(size_, ...)` —
the two objects trade whole states.  Returns (self afterwards, other
afterwards). -/
def Vector.Swap (a b : Vector α) : Vector α × Vector α := (b, a)

/-- `Vector::operator=(const Vector&)`.  `same` models `this == &rhs`.
If `rhs.size_ > this.Capacity()` the copy-and-swap branch is taken, else the
slot-reuse branch (`std::copy` of `min(rhs.size_, size_)` elements, then
either `std::destroy_n` of the excess or `std::uninitialized_copy_n` of the
missing tail). -/
def Vector.copyAssign (self rhs : Vector α) (same : Bool) : Vector α :=
  if same then self
  else if self.data_.length < rhs.size_ then Vector.copyCtor rhs
  else
    let count := min rhs.size_ self.size_
    let s1 := copyFrom self.data_ rhs.data_ 0 0 count
    if rhs.size_ < self.size_ then
      ⟨fillRange s1 rhs.size_ self.size_ none, rhs.size_⟩
    else
      ⟨copyFrom s1 rhs.data_ self.size_ self.size_ (rhs.size_ - self.size_), rhs.size_⟩

/-- `Vector::operator=(Vector&&)`: `Swap(rhs)` unless `this == &rhs` (`same`).
Returns (self afterwards, rhs afterwards). -/
def Vector.moveAssign (self rhs : Vector α) (same : Bool) : Vector α × Vector α :=
  if same then (self, rhs) else (rhs, self)

/-- `Vector::EmplaceBack`: when full, a new arena of doubled capacity (1 when
`size_ == 0`) is acquired, the new element constructed at index `size_`,
`InitOnConstruct` relocates the old live elements, the old objects are
destroyed and the arenas swapped; otherwise the element is constructed in
place at index `size_`.  Returns the vector and the new element's index. -/
def Vector.EmplaceBack (v : Vector α) (x : α) : Vector α × Nat :=
  if v.size_ = v.data_.length then
    let newData : Slots α := List.replicate (if v.size_ = 0 then 1 else v.size_ * 2) none
    let s1 := newData.set v.size_ (some x)
    let s2 := copyFrom s1 v.data_ 0 0 v.size_
    (⟨s2, v.size_ + 1⟩, v.size_)
  else
    (⟨v.data_.set v.size_ (some x), v.size_ + 1⟩, v.size_)

/-- `Vector::PushBack`: forwards to `EmplaceBack`. -/
def Vector.PushBack (v : Vector α) (x : α) : Vector α × Nat := v.EmplaceBack x

/-- `Vector::PopBack`: destroys the last live element when `size_ > 0`. -/
def Vector.PopBack (v : Vector α) : Vector α :=
  if 0 < v.size_ then ⟨v.data_.set (v.size_ - 1) none, v.size_ - 1⟩ else v

/-- `Vector::Reserve`: no-op when `new_capacity ≤ Capacity()`; otherwise a new
arena of exactly `new_capacity` slots is acquired, `InitOnConstruct` relocates
the `size_` live elements, the old ones are destroyed and the arenas
swapped. -/
def Vector.Reserve (v : Vector α) (new_capacity : Nat) : Vector α :=
  if new_capacity ≤ v.data_.length then v
  else ⟨copyFrom (List.replicate new_capacity none) v.data_ 0 0 v.size_, v.size_⟩

/-- `Vector::Resize`: growing reserves then value-constructs the new tail;
shrinking destroys the excess tail. -/
def Vector.Resize [Inhabited α] (v : Vector α) (new_size : Nat) : Vector α :=
  if v.size_ < new_size then
    ⟨fillRange (v.Reserve new_size).data_ v.size_ new_size (some default), new_size⟩
  else
    ⟨fillRange v.data_ new_size v.size_ none, new_size⟩

/-- `Vector::ReAllocateEmplace` (relocation by move, or by a copy that
succeeds): new arena of doubled capacity (1 when empty), the new element
constructed at index `count`, then the old prefix `[0, count)` and suffix
`[count, size_)` relocated around it.  `size_` itself is incremented by the
caller `Emplace`. -/
def Vector.ReAllocateEmplace (v : Vector α) (count : Nat) (x : α) : Vector α :=
  let newData : Slots α := List.replicate (if v.size_ = 0 then 1 else v.size_ * 2) none
  let s1 := newData.set count (some x)
  let s2 := copyFrom s1 v.data_ 0 0 count
  let s3 := copyFrom s2 v.data_ count (count + 1) (v.size_ - count)
  ⟨s3, v.size_⟩

/-- `Vector::NoAllocateEmplace`: when non-empty, move-construct the last
element into slot `size_`, `std::move_backward` slots `[count, size_)` one to
the right, destroy slot `count`, then construct the new element there.
`size_` itself is incremented by the caller `Emplace`. -/
def Vector.NoAllocateEmplace (v : Vector α) (count : Nat) (x : α) : Vector α :=
  if v.size_ ≠ 0 then
    let s1 := v.data_.set v.size_ (v.data_.getD (v.size_ - 1) none)
    let s2 := moveBackward s1 count v.size_ (v.size_ + 1)
    let s3 := s2.set count none
    ⟨s3.set count (some x), v.size_⟩
  else
    ⟨v.data_.set count (some x), v.size_⟩

/-- `Vector::Emplace(pos, args...)` with `count = pos - begin()`: dispatches
on fullness, then increments `size_`.  Returns the vector and the index of the
inserted element (the returned iterator). -/
def Vector.Emplace (v : Vector α) (count : Nat) (x : α) : Vector α × Nat :=
  let w := if v.size_ = v.data_.length
           then v.ReAllocateEmplace count x
           else v.NoAllocateEmplace count x
  (⟨w.data_, w.size_ + 1⟩, count)

/-- `Vector::Insert`: forwards to `Emplace`. -/
def Vector.Insert (v : Vector α) (count : Nat) (x : α) : Vector α × Nat :=
  v.Emplace count x

/-- `Vector::Erase(pos)` with `count = pos - begin()`:
`std::move_backward(begin() + count + 1, end(), end() - 1)` then `PopBack()`.
Returns the vector and the index `count` (the returned iterator
`begin() + count`). -/
def Vector.Erase (v : Vector α) (count : Nat) : Vector α × Nat :=
  ((Vector.mk (moveBackward v.data_ (count + 1) v.size_ (v.size_ - 1)) v.size_).PopBack,
   count)

/-- `std::uninitialized_copy_n` with a copy constructor that throws once the
budget of successful copies is exhausted.  On a throw the elements constructed
by this very call are destroyed again (the guarantee of
`uninitialized_copy_n` itself), so the caller's destination reverts to its
pre-call contents; `none` signals the escaped exception. -/
def uninitCopyNThrow (dst src : Slots α) (srcLo dstLo n budget : Nat) :
    Option (Slots α × Nat) :=
  match n, budget with
  | 0, b => some (dst, b)
  | _ + 1, 0 => none
  | m + 1, b + 1 =>
      uninitCopyNThrow (dst.set dstLo (src.getD srcLo none)) src (srcLo + 1) (dstLo + 1) m b

/-- `Vector::ReAllocateEmplace`, copy branch (copyable element type without a
non-throwing move), with a throwing copy constructor: construct the new
element at `count` in the new arena, try to copy the prefix and then the
suffix; the catch destroys exactly the just-constructed new element and
rethrows.  On success: `Except.ok` of the relocated state (size still to be
incremented by `Emplace`) and the result index.  On a throw: `Except.error`
of (the vector as the exception escapes, the new arena's slots after the
catch). -/
def Vector.ReAllocateEmplaceThrow (v : Vector α) (count : Nat) (x : α) (budget : Nat) :
    Except (Vector α × Slots α) (Vector α × Nat) :=
  let newData : Slots α := List.replicate (if v.size_ = 0 then 1 else v.size_ * 2) none
  let s1 := newData.set count (some x)
  match uninitCopyNThrow s1 v.data_ 0 0 count budget with
  | none => .error (v, s1.set count none)
  | some (s2, b2) =>
      match uninitCopyNThrow s2 v.data_ count (count + 1) (v.size_ - count) b2 with
      | none => .error (v, s2.set count none)
      | some (s3, _) => .ok (⟨s3, v.size_⟩, count)

/-- What C5 states about one `EmplaceBack` call: one element appended, size
incremented, capacity doubled (or set to 1) exactly when the vector was
full. -/
def emplaceBackPost (v : Vector α) (x : α) : Prop :=
  (v.EmplaceBack x).1.elems = v.elems ++ [x] ∧
  (v.EmplaceBack x).1.size_ = v.size_ + 1 ∧
  (v.EmplaceBack x).1.Capacity =
    (if v.size_ = v.Capacity then (if v.Capacity = 0 then 1 else 2 * v.Capacity)
     else v.Capacity)

/-- The concrete scenario of C5: three `EmplaceBack` calls starting from the
empty vector give capacities 1, 2, 4 and the sequence 1, 2, 3. -/
def emplaceBackScenario : Prop :=
  (Vector.EmplaceBack (⟨[], 0⟩ : Vector Nat) 1).1.Capacity = 1 ∧
  ((Vector.EmplaceBack (⟨[], 0⟩ : Vector Nat) 1).1.EmplaceBack 2).1.Capacity = 2 ∧
  (((Vector.EmplaceBack (⟨[], 0⟩ : Vector Nat) 1).1.EmplaceBack 2).1.EmplaceBack 3).1.Capacity
    = 4 ∧
  (((Vector.EmplaceBack (⟨[], 0⟩ : Vector Nat) 1).1.EmplaceBack 2).1.EmplaceBack 3).1.elems
    = [1, 2, 3] ∧
  (((Vector.EmplaceBack (⟨[], 0⟩ : Vector Nat) 1).1.EmplaceBack 2).1.EmplaceBack 3).1.size_
    = 3

/-- The states produced by sequences of the public `Vector` operations. -/
inductive Reachable {α : Type} [Inhabited α] : Vector α → Prop
  | empty : Reachable ⟨[], 0⟩
  | sized (n : Nat) : Reachable (Vector.sized n)
  | copy {v : Vector α} : Reachable v → Reachable (Vector.copyCtor v)
  | moveNew {v : Vector α} : Reachable v → Reachable v.moveCtor.1
  | moveOld {v : Vector α} : Reachable v → Reachable v.moveCtor.2
  | assignCopy {a b : Vector α} :
      Reachable a → Reachable b → Reachable (a.copyAssign b false)
  | assignCopySelf {a : Vector α} : Reachable a → Reachable (a.copyAssign a true)
  | assignMoveDst {a b : Vector α} :
      Reachable a → Reachable b → Reachable (a.moveAssign b false).1
  | assignMoveSrc {a b : Vector α} :
      Reachable a → Reachable b → Reachable (a.moveAssign b false).2
  | assignMoveSelf {a : Vector α} : Reachable a → Reachable (a.moveAssign a true).1
  | swapFst {a b : Vector α} : Reachable a → Reachable b → Reachable (a.Swap b).1
  | swapSnd {a b : Vector α} : Reachable a → Reachable b → Reachable (a.Swap b).2
  | reserve {v : Vector α} (n : Nat) : Reachable v → Reachable (v.Reserve n)
  | resize {v : Vector α} (n : Nat) : Reachable v → Reachable (v.Resize n)
  | push {v : Vector α} (x : α) : Reachable v → Reachable (v.EmplaceBack x).1
  | pop {v : Vector α} : Reachable v → Reachable v.PopBack
  | emplace {v : Vector α} (count : Nat) (x : α) :
      Reachable v → count ≤ v.size_ → Reachable (v.Emplace count x).1
  | erase {v : Vector α} (count : Nat) :
      Reachable v → count < v.size_ → Reachable (v.Erase count).1

/-! ### Slot-level lemmas -/

theorem length_mapIdxFrom (k : Nat) (f : Nat → Option α → Option α) (l : Slots α) :
    (mapIdxFrom k f l).length = l.length := by
  induction l generalizing k with
  | nil => rfl
  | cons a rest ih => simp [mapIdxFrom, ih]

theorem getD_mapIdxFrom (k : Nat) (f : Nat → Option α → Option α) (l : Slots α) (i : Nat) :
    (mapIdxFrom k f l).getD i none =
      if i < l.length then f (k + i) (l.getD i none) else none := by
  induction l generalizing k i with
  | nil => simp [mapIdxFrom]
  | cons a rest ih =>
    cases i with
    | zero => simp [mapIdxFrom]
    | succ j =>
      simp only [mapIdxFrom, List.getD_cons_succ, List.length_cons]
      rw [ih (k + 1) j]
      have hk : k + 1 + j = k + (j + 1) := by omega
      by_cases h : j < rest.length
      · rw [if_pos h, if_pos (by omega), hk]
      · rw [if_neg h, if_neg (by omega)]

theorem getD_ge_length (l : Slots α) (i : Nat) (h : l.length ≤ i) :
    l.getD i none = none := by
  induction l generalizing i with
  | nil => simp
  | cons a rest ih =>
    cases i with
    | zero => simp at h
    | succ j =>
      simp only [List.getD_cons_succ]
      exact ih j (by simpa using h)

theorem getD_set (l : Slots α) (i j : Nat) (a : Option α) :
    (l.set i a).getD j none = if i = j ∧ j < l.length then a else l.getD j none := by
  induction l generalizing i j with
  | nil => simp
  | cons b rest ih =>
    cases i with
    | zero =>
      cases j with
      | zero => simp
      | succ j' => simp
    | succ i' =>
      cases j with
      | zero => simp
      | succ j' =>
        simp only [List.set, List.getD_cons_succ, List.length_cons]
        rw [ih i' j']
        by_cases h : i' = j' ∧ j' < rest.length
        · rw [if_pos h, if_pos (by omega)]
        · rw [if_neg h, if_neg (by omega)]

theorem getD_replicate (n i : Nat) (x : Option α) :
    (List.replicate n x).getD i none = if i < n then x else none := by
  induction n generalizing i with
  | zero => simp
  | succ m ih =>
    cases i with
    | zero => simp [List.replicate]
    | succ j =>
      simp only [List.replicate, List.getD_cons_succ]
      rw [ih j]
      by_cases h : j < m
      · rw [if_pos h, if_pos (by omega)]
      · rw [if_neg h, if_neg (by omega)]

theorem length_copyFrom (dst src : Slots α) (srcLo dstLo n : Nat) :
    (copyFrom dst src srcLo dstLo n).length = dst.length :=
  length_mapIdxFrom 0 _ dst

theorem getD_copyFrom (dst src : Slots α) (srcLo dstLo n j : Nat) :
    (copyFrom dst src srcLo dstLo n).getD j none =
      if dstLo ≤ j ∧ j < dstLo + n ∧ j < dst.length then
        src.getD (srcLo + (j - dstLo)) none
      else dst.getD j none := by
  rw [copyFrom, getD_mapIdxFrom]
  by_cases hlen : j < dst.length
  · rw [if_pos hlen]
    simp only [Nat.zero_add]
    by_cases hw : dstLo ≤ j ∧ j < dstLo + n
    · rw [if_pos hw, if_pos ⟨hw.1, hw.2, hlen⟩]
    · rw [if_neg hw, if_neg (by tauto)]
  · rw [if_neg hlen, if_neg (by tauto), getD_ge_length dst j (by omega)]

theorem length_fillRange (dst : Slots α) (lo hi : Nat) (val : Option α) :
    (fillRange dst lo hi val).length = dst.length :=
  length_mapIdxFrom 0 _ dst

theorem getD_fillRange (dst : Slots α) (lo hi : Nat) (val : Option α) (j : Nat) :
    (fillRange dst lo hi val).getD j none =
      if lo ≤ j ∧ j < hi ∧ j < dst.length then val else dst.getD j none := by
  rw [fillRange, getD_mapIdxFrom]
  by_cases hlen : j < dst.length
  · rw [if_pos hlen]
    simp only [Nat.zero_add]
    by_cases hw : lo ≤ j ∧ j < hi
    · rw [if_pos hw, if_pos ⟨hw.1, hw.2, hlen⟩]
    · rw [if_neg hw, if_neg (by tauto)]
  · rw [if_neg hlen, if_neg (by tauto), getD_ge_length dst j (by omega)]

theorem length_moveBackwardGo (n : Nat) (s : Slots α) (last dlast : Nat) :
    (moveBackwardGo n s last dlast).length = s.length := by
  induction n generalizing s last dlast with
  | zero => rfl
  | succ m ih => rw [moveBackwardGo, ih, List.length_set]

theorem getD_moveBackwardGo_ge (n : Nat) (s : Slots α) (last dlast : Nat)
    (hn : n ≤ dlast) (i : Nat) (hi : dlast ≤ i) :
    (moveBackwardGo n s last dlast).getD i none = s.getD i none := by
  induction n generalizing s last dlast with
  | zero => rfl
  | succ m ih =>
    rw [moveBackwardGo, ih _ _ _ (by omega) (by omega), getD_set,
      if_neg (by omega)]

theorem getD_moveBackwardGo_lt (n : Nat) (s : Slots α) (last dlast : Nat)
    (i : Nat) (hi : i < dlast - n) :
    (moveBackwardGo n s last dlast).getD i none = s.getD i none := by
  induction n generalizing s last dlast with
  | zero => rfl
  | succ m ih =>
    rw [moveBackwardGo, ih _ _ _ (by omega), getD_set, if_neg (by omega)]

theorem isSome_moveBackwardGo (n : Nat) (s : Slots α) (last dlast m : Nat)
    (hlast : last ≤ m) (hdlast : dlast ≤ m) (hnl : n ≤ last) (hnd : n ≤ dlast)
    (hm : m ≤ s.length)
    (hall : ∀ i, i < m → (s.getD i none).isSome = true) :
    ∀ i, i < m → ((moveBackwardGo n s last dlast).getD i none).isSome = true := by
  induction n generalizing s last dlast with
  | zero => exact hall
  | succ k ih =>
    rw [moveBackwardGo]
    refine ih _ (last - 1) (dlast - 1) (by omega) (by omega) (by omega) (by omega)
      (by rw [List.length_set]; exact hm) ?_
    intro i hi
    rw [getD_set]
    by_cases h : dlast - 1 = i ∧ i < s.length
    · rw [if_pos h]
      exact hall (last - 1) (by omega)
    · rw [if_neg h]
      exact hall i hi

theorem readElems_congr (s1 s2 : Slots α) (n : Nat)
    (h : ∀ i, i < n → s1.getD i none = s2.getD i none) :
    readElems s1 n = readElems s2 n := by
  induction n with
  | zero => rfl
  | succ m ih =>
    rw [readElems, readElems, ih (fun i hi => h i (by omega)), h m (by omega)]

/-! ### Invariant preservation, operation by operation -/

theorem inv_mk (s : Slots α) (m : Nat) (h1 : m ≤ s.length)
    (h2 : ∀ i, i < m → (s.getD i none).isSome = true)
    (h3 : ∀ i, i < s.length → m ≤ i → s.getD i none = none) :
    (Vector.mk s m).Inv := ⟨h1, h2, h3⟩

theorem inv_empty : (⟨[], 0⟩ : Vector α).Inv := by
  refine inv_mk _ _ (Nat.le.refl) ?_ ?_ <;> intro i hi <;> simp at hi

theorem inv_sized [Inhabited α] (n : Nat) : (Vector.sized (α := α) n).Inv := by
  rw [Vector.sized]
  refine inv_mk _ _ (by simp) ?_ ?_
  · intro i hi
    rw [getD_replicate, if_pos hi]
    rfl
  · intro i hilen hige
    simp only [List.length_replicate] at hilen
    omega

theorem inv_copyCtor (v : Vector α) (h : v.Inv) : (Vector.copyCtor v).Inv := by
  obtain ⟨hsz, hlive, hdead⟩ := h
  rw [Vector.copyCtor]
  refine inv_mk _ _ (by simp [length_copyFrom]) ?_ ?_
  · intro i hi
    rw [getD_copyFrom,
      if_pos ⟨by omega, by omega, by simp only [List.length_replicate]; omega⟩]
    simpa using hlive i hi
  · intro i hilen hige
    simp only [length_copyFrom, List.length_replicate] at hilen
    omega

theorem size_Reserve (v : Vector α) (n : Nat) : (v.Reserve n).size_ = v.size_ := by
  rw [Vector.Reserve]; split <;> rfl

theorem length_Reserve (v : Vector α) (n : Nat) :
    (v.Reserve n).data_.length = if n ≤ v.data_.length then v.data_.length else n := by
  rw [Vector.Reserve]; split
  · rfl
  · simp [length_copyFrom]

theorem getD_Reserve_live (v : Vector α) (n : Nat) (i : Nat) (hi : i < v.size_)
    (hsz : v.size_ ≤ v.data_.length) :
    (v.Reserve n).data_.getD i none = v.data_.getD i none := by
  rw [Vector.Reserve]; split
  · rfl
  · rename_i hgt
    rw [getD_copyFrom,
      if_pos ⟨by omega, by omega, by simp only [List.length_replicate]; omega⟩]
    simp

theorem inv_Reserve (v : Vector α) (n : Nat) (h : v.Inv) : (v.Reserve n).Inv := by
  obtain ⟨hsz, hlive, hdead⟩ := h
  rw [Vector.Reserve]; split
  · exact ⟨hsz, hlive, hdead⟩
  · rename_i hgt
    refine inv_mk _ _ (by simp only [length_copyFrom, List.length_replicate]; omega) ?_ ?_
    · intro i hi
      rw [getD_copyFrom,
        if_pos ⟨by omega, by omega, by simp only [List.length_replicate]; omega⟩]
      simpa using hlive i hi
    · intro i hilen hige
      simp only [length_copyFrom, List.length_replicate] at hilen
      rw [getD_copyFrom, if_neg (by simp only [List.length_replicate]; omega),
        getD_replicate]
      exact ite_self none

theorem inv_Resize [Inhabited α] (v : Vector α) (n : Nat) (h : v.Inv) :
    (v.Resize n).Inv := by
  obtain ⟨hsz, hlive, hdead⟩ := h
  have hrsz := size_Reserve v n
  have hrlen := length_Reserve v n
  have hrinv := inv_Reserve v n ⟨hsz, hlive, hdead⟩
  obtain ⟨rsz, rlive, rdead⟩ := hrinv
  rw [Vector.Resize]; split
  · rename_i hgrow
    have hlen2 : n ≤ (v.Reserve n).data_.length := by
      rw [hrlen]; split <;> omega
    refine inv_mk _ _ (by simp only [length_fillRange]; omega) ?_ ?_
    · intro i hi
      rw [getD_fillRange]
      by_cases hcase : v.size_ ≤ i
      · rw [if_pos ⟨hcase, hi, by omega⟩]; rfl
      · rw [if_neg (by omega), getD_Reserve_live v n i (by omega) hsz]
        exact hlive i (by omega)
    · intro i hilen hige
      simp only [length_fillRange] at hilen
      rw [getD_fillRange, if_neg (by omega)]
      exact rdead i hilen (by omega)
  · rename_i hng
    refine inv_mk _ _ (by simp only [length_fillRange]; omega) ?_ ?_
    · intro i hi
      rw [getD_fillRange, if_neg (by omega)]
      exact hlive i (by omega)
    · intro i hilen hige
      simp only [length_fillRange] at hilen
      rw [getD_fillRange]
      by_cases hcase : i < v.size_
      · rw [if_pos ⟨hige, hcase, hilen⟩]
      · rw [if_neg (by omega)]
        exact hdead i hilen (by omega)

theorem inv_PopBack (v : Vector α) (h : v.Inv) : v.PopBack.Inv := by
  obtain ⟨hsz, hlive, hdead⟩ := h
  rw [Vector.PopBack]; split
  · rename_i hpos
    refine inv_mk _ _ (by simp only [List.length_set]; omega) ?_ ?_
    · intro i hi
      rw [getD_set, if_neg (by omega)]
      exact hlive i (by omega)
    · intro i hilen hige
      simp only [List.length_set] at hilen
      rw [getD_set]
      by_cases hcase : v.size_ - 1 = i
      · rw [if_pos ⟨hcase, hilen⟩]
      · rw [if_neg (by tauto)]
        exact hdead i hilen (by omega)
  · exact ⟨hsz, hlive, hdead⟩

theorem inv_EmplaceBack (v : Vector α) (x : α) (h : v.Inv) : (v.EmplaceBack x).1.Inv := by
  obtain ⟨hsz, hlive, hdead⟩ := h
  by_cases hfull : v.size_ = v.data_.length
  · simp only [Vector.EmplaceBack, if_pos hfull]
    have hN : v.size_ < (if v.size_ = 0 then 1 else v.size_ * 2) := by split <;> omega
    refine inv_mk _ _ ?_ ?_ ?_
    · simp only [length_copyFrom, List.length_set, List.length_replicate]
      omega
    · intro i hi
      rw [getD_copyFrom]
      by_cases hcase : i < v.size_
      · rw [if_pos ⟨by omega, by omega,
          by simp only [List.length_set, List.length_replicate]; omega⟩]
        simpa using hlive i hcase
      · have hieq : i = v.size_ := by omega
        subst hieq
        rw [if_neg (by simp only [List.length_set, List.length_replicate]; omega),
          getD_set, if_pos ⟨rfl, by simp only [List.length_replicate]; omega⟩]
        rfl
    · intro i hilen hige
      simp only [length_copyFrom, List.length_set, List.length_replicate] at hilen
      rw [getD_copyFrom,
        if_neg (by simp only [List.length_set, List.length_replicate]; omega),
        getD_set, if_neg (by omega), getD_replicate]
      exact ite_self none
  · simp only [Vector.EmplaceBack, if_neg hfull]
    have hlt : v.size_ < v.data_.length := by omega
    refine inv_mk _ _ (by simp only [List.length_set]; omega) ?_ ?_
    · intro i hi
      rw [getD_set]
      by_cases hcase : v.size_ = i
      · rw [if_pos ⟨hcase, by omega⟩]; rfl
      · rw [if_neg (by tauto)]
        exact hlive i (by omega)
    · intro i hilen hige
      simp only [List.length_set] at hilen
      rw [getD_set, if_neg (by omega)]
      exact hdead i hilen (by omega)

theorem inv_Emplace (v : Vector α) (count : Nat) (x : α) (h : v.Inv)
    (hc : count ≤ v.size_) : (v.Emplace count x).1.Inv := by
  obtain ⟨hsz, hlive, hdead⟩ := h
  by_cases hfull : v.size_ = v.data_.length
  · simp only [Vector.Emplace, Vector.ReAllocateEmplace, if_pos hfull]
    have hN : v.size_ < (if v.size_ = 0 then 1 else v.size_ * 2) := by split <;> omega
    have hcN : count < (if v.size_ = 0 then 1 else v.size_ * 2) := by omega
    refine inv_mk _ _ ?_ ?_ ?_
    · simp only [length_copyFrom, List.length_set, List.length_replicate]
      omega
    · intro i hi
      rw [getD_copyFrom]
      by_cases hsuf : count + 1 ≤ i ∧ i < count + 1 + (v.size_ - count)
      · rw [if_pos ⟨hsuf.1, hsuf.2,
          by simp only [length_copyFrom, List.length_set, List.length_replicate]; omega⟩]
        have hix : count + (i - (count + 1)) = i - 1 := by omega
        rw [hix]
        exact hlive (i - 1) (by omega)
      · rw [if_neg (by
          simp only [length_copyFrom, List.length_set, List.length_replicate]
          omega), getD_copyFrom]
        by_cases hpre : i < count
        · rw [if_pos ⟨by omega, by omega,
            by simp only [List.length_set, List.length_replicate]; omega⟩]
          simpa using hlive i (by omega)
        · have hieq : i = count := by omega
          subst hieq
          rw [if_neg (by simp only [List.length_set, List.length_replicate]; omega),
            getD_set, if_pos ⟨rfl, by simp only [List.length_replicate]; omega⟩]
          rfl
    · intro i hilen hige
      simp only [length_copyFrom, List.length_set, List.length_replicate] at hilen
      rw [getD_copyFrom, if_neg (by
          simp only [length_copyFrom, List.length_set, List.length_replicate]
          omega), getD_copyFrom, if_neg (by
          simp only [List.length_set, List.length_replicate]
          omega), getD_set, if_neg (by omega), getD_replicate]
      exact ite_self none
  · simp only [Vector.Emplace, Vector.NoAllocateEmplace, if_neg hfull]
    have hlt : v.size_ < v.data_.length := by omega
    by_cases hz : v.size_ ≠ 0
    · rw [if_pos hz]
      have hc0 : 0 < v.size_ := by omega
      have hs1len :
          (v.data_.set v.size_ (v.data_.getD (v.size_ - 1) none)).length =
            v.data_.length := List.length_set v.data_ v.size_ _
      have hs1live : ∀ i, i < v.size_ + 1 →
          ((v.data_.set v.size_ (v.data_.getD (v.size_ - 1) none)).getD i none).isSome
            = true := by
        intro i hi
        rw [getD_set]
        by_cases hcase : v.size_ = i
        · rw [if_pos ⟨hcase, by omega⟩]
          exact hlive (v.size_ - 1) (by omega)
        · rw [if_neg (by tauto)]
          exact hlive i (by omega)
      have hs2live := isSome_moveBackwardGo (v.size_ - count) _ v.size_ (v.size_ + 1)
        (v.size_ + 1) (by omega) (by omega) (by omega) (by omega)
        (by rw [hs1len]; omega) hs1live
      dsimp only
      refine inv_mk _ _ ?_ ?_ ?_
      · simp only [List.length_set, moveBackward, length_moveBackwardGo, hs1len]
        omega
      · intro i hi
        rw [getD_set]
        by_cases hcase : count = i
        · rw [if_pos ⟨hcase, by
            simp only [List.length_set, moveBackward, length_moveBackwardGo, hs1len]
            omega⟩]
          rfl
        · rw [if_neg (by tauto), getD_set, if_neg (by tauto)]
          exact hs2live i hi
      · intro i hilen hige
        simp only [List.length_set, moveBackward, length_moveBackwardGo, hs1len] at hilen
        rw [getD_set, if_neg (by omega), getD_set, if_neg (by omega), moveBackward,
          getD_moveBackwardGo_ge _ _ _ _ (by omega) i (by omega),
          getD_set, if_neg (by omega)]
        exact hdead i hilen (by omega)
    · rw [if_neg hz]
      have hc0 : count = 0 := by omega
      subst hc0
      dsimp only
      refine inv_mk _ _ (by simp only [List.length_set]; omega) ?_ ?_
      · intro i hi
        have hi0 : i = 0 := by omega
        subst hi0
        rw [getD_set, if_pos ⟨rfl, by omega⟩]
        rfl
      · intro i hilen hige
        simp only [List.length_set] at hilen
        rw [getD_set, if_neg (by omega)]
        exact hdead i hilen (by omega)

theorem inv_copyAssign (a b : Vector α) (ha : a.Inv) (hb : b.Inv) :
    (a.copyAssign b false).Inv := by
  obtain ⟨hasz, halive, hadead⟩ := ha
  obtain ⟨hbsz, hblive, hbdead⟩ := hb
  simp only [Vector.copyAssign, Bool.false_eq_true, if_false]
  split
  · exact inv_copyCtor b ⟨hbsz, hblive, hbdead⟩
  · rename_i hle
    split
    · rename_i hshrink
      refine inv_mk _ _ (by simp only [length_fillRange, length_copyFrom]; omega) ?_ ?_
      · intro i hi
        rw [getD_fillRange, if_neg (by omega), getD_copyFrom,
          if_pos ⟨by omega, by omega, by omega⟩]
        simpa using hblive i (by omega)
      · intro i hilen hige
        simp only [length_fillRange, length_copyFrom] at hilen
        rw [getD_fillRange]
        by_cases hcase : i < a.size_
        · rw [if_pos ⟨hige, hcase, by simp only [length_copyFrom]; omega⟩]
        · rw [if_neg (by omega), getD_copyFrom, if_neg (by omega)]
          exact hadead i hilen (by omega)
    · rename_i hgrow
      refine inv_mk _ _ (by simp only [length_copyFrom]; omega) ?_ ?_
      · intro i hi
        rw [getD_copyFrom]
        by_cases hcase : a.size_ ≤ i
        · rw [if_pos ⟨hcase, by omega,
            by simp only [length_copyFrom]; omega⟩]
          have hix : a.size_ + (i - a.size_) = i := by omega
          rw [hix]
          exact hblive i (by omega)
        · rw [if_neg (by omega), getD_copyFrom,
            if_pos ⟨by omega, by omega, by omega⟩]
          simpa using hblive i (by omega)
      · intro i hilen hige
        simp only [length_copyFrom] at hilen
        rw [getD_copyFrom, if_neg (by omega), getD_copyFrom, if_neg (by omega)]
        exact hadead i hilen (by omega)

theorem inv_Erase (v : Vector α) (count : Nat) (h : v.Inv) (hc : count < v.size_) :
    (v.Erase count).1.Inv := by
  obtain ⟨hsz, hlive, hdead⟩ := h
  simp only [Vector.Erase, Vector.PopBack, moveBackward]
  rw [if_pos (show 0 < v.size_ by omega)]
  have hs1live := isSome_moveBackwardGo (v.size_ - (count + 1)) v.data_ v.size_
    (v.size_ - 1) v.size_ (by omega) (by omega) (by omega) (by omega) hsz hlive
  refine inv_mk _ _ ?_ ?_ ?_
  · simp only [List.length_set, length_moveBackwardGo]
    omega
  · intro i hi
    rw [getD_set, if_neg (by omega)]
    exact hs1live i (by omega)
  · intro i hilen hige
    simp only [List.length_set, length_moveBackwardGo] at hilen
    rw [getD_set]
    by_cases hcase : v.size_ - 1 = i
    · rw [if_pos ⟨hcase, by rw [length_moveBackwardGo]; exact hilen⟩]
    · rw [if_neg (by tauto),
        getD_moveBackwardGo_ge _ _ _ _ (by omega) i (by omega)]
      exact hdead i hilen (by omega)

/-! ### Lemmas about the throwing copy and the element sequence -/

theorem uninitCopyNThrow_none (dst src : Slots α) (srcLo dstLo n budget : Nat)
    (h : budget < n) :
    uninitCopyNThrow dst src srcLo dstLo n budget = none := by
  induction n generalizing dst srcLo dstLo budget with
  | zero => omega
  | succ m ih =>
    cases budget with
    | zero => rfl
    | succ b =>
      rw [uninitCopyNThrow]
      exact ih _ _ _ _ (by omega)

theorem uninitCopyNThrow_some (dst src : Slots α) (srcLo dstLo n budget : Nat)
    (h : n ≤ budget) :
    ∃ dst2, uninitCopyNThrow dst src srcLo dstLo n budget = some (dst2, budget - n) ∧
      dst2.length = dst.length := by
  induction n generalizing dst srcLo dstLo budget with
  | zero => exact ⟨dst, rfl, rfl⟩
  | succ m ih =>
    cases budget with
    | zero => omega
    | succ b =>
      obtain ⟨d2, hd2, hlen⟩ :=
        ih (dst.set dstLo (src.getD srcLo none)) (srcLo + 1) (dstLo + 1) b (by omega)
      refine ⟨d2, ?_, by rw [hlen, List.length_set]⟩
      rw [uninitCopyNThrow, hd2, Nat.succ_sub_succ]

theorem elems_EmplaceBack (v : Vector α) (x : α) (hsz : v.size_ ≤ v.data_.length) :
    (v.EmplaceBack x).1.elems = v.elems ++ [x] := by
  by_cases hfull : v.size_ = v.data_.length
  · simp only [Vector.EmplaceBack, if_pos hfull, Vector.elems]
    have hN : v.size_ < (if v.size_ = 0 then 1 else v.size_ * 2) := by split <;> omega
    rw [readElems]
    congr 1
    · exact readElems_congr _ _ _ (fun i hi => by
        rw [getD_copyFrom, if_pos ⟨by omega, by omega,
          by simp only [List.length_set, List.length_replicate]; omega⟩]
        simp)
    · rw [getD_copyFrom,
        if_neg (by simp only [List.length_set, List.length_replicate]; omega),
        getD_set, if_pos ⟨rfl, by simp only [List.length_replicate]; omega⟩]
      rfl
  · simp only [Vector.EmplaceBack, if_neg hfull, Vector.elems]
    rw [readElems]
    congr 1
    · exact readElems_congr _ _ _ (fun i hi => by rw [getD_set, if_neg (by omega)])
    · rw [getD_set, if_pos ⟨rfl, by omega⟩]
      rfl

/-! ### The claims -/

/-- Claim C1 (code bug): `Erase` is claimed to shift the subsequent elements
left by one, preserving their relative order.  The implementation calls
`std::move_backward(begin() + count + 1, end(), end() - 1)` — a backward move
into overlapping earlier slots — which instead propagates the original last
element into every shifted position.  On the reachable, invariant-satisfying
vector `[1, 2, 3]` (capacity 4), `Erase` at position 0 yields the live
sequence `[3, 3]`, while the claim demands `[2, 3]`; size is decremented and
the returned iterator is `begin() + 0` as claimed. -/
theorem C1_erase_misshifts_via_move_backward :
    Vector.Inv (⟨[some 1, some 2, some 3, none], 3⟩ : Vector Nat) ∧
    (Vector.Erase (⟨[some 1, some 2, some 3, none], 3⟩ : Vector Nat) 0).1 =
      ⟨[some 3, some 3, none, none], 2⟩ ∧
    (Vector.Erase (⟨[some 1, some 2, some 3, none], 3⟩ : Vector Nat) 0).1.elems = [3, 3] ∧
    (Vector.Erase (⟨[some 1, some 2, some 3, none], 3⟩ : Vector Nat) 0).2 = 0 ∧
    List.eraseIdx (Vector.elems ⟨[some 1, some 2, some 3, none], 3⟩) 0 = [2, 3] := by
  decide

/-- Claim C2: in the relocating branch of `Insert`/`Emplace` for a copyable
type without a non-throwing move, if a copy throws during relocation then the
just-constructed new element is destroyed (the slot at `count` in the new
arena is uninitialized after the catch) and the vector escapes the call
observably unchanged — the strong exception guarantee of that branch. -/
theorem C2_realloc_emplace_strong_guarantee (v : Vector Nat) (count x budget : Nat)
    (hfull : v.size_ = v.Capacity) (hcount : count ≤ v.size_)
    (hthrow : budget < v.size_) :
    ∃ s, v.ReAllocateEmplaceThrow count x budget = Except.error (v, s) ∧
      s.getD count none = none := by
  have hcN : count < (if v.size_ = 0 then 1 else v.size_ * 2) := by split <;> omega
  simp only [Vector.ReAllocateEmplaceThrow]
  by_cases hb : budget < count
  · rw [uninitCopyNThrow_none _ _ _ _ _ _ hb]
    refine ⟨_, rfl, ?_⟩
    rw [getD_set, if_pos ⟨rfl,
      by simp only [List.length_set, List.length_replicate]; exact hcN⟩]
  · obtain ⟨d2, hd2, hlen⟩ := uninitCopyNThrow_some
      ((List.replicate (if v.size_ = 0 then 1 else v.size_ * 2) none).set count (some x))
      v.data_ 0 0 count budget (by omega)
    rw [hd2]
    dsimp only
    rw [uninitCopyNThrow_none _ _ _ _ _ _
      (show budget - count < v.size_ - count by omega)]
    refine ⟨_, rfl, ?_⟩
    rw [getD_set, if_pos ⟨rfl, by
      rw [hlen]
      simp only [List.length_set, List.length_replicate]
      exact hcN⟩]

/-- Claim C2 witness: on the full vector `[1, 2]` with insertion position 1
and a copy budget of 1 (the second copy throws), the relocating copy branch
fails, the escaping state equals the input, and the new element's slot is
destroyed. -/
theorem C2_realloc_emplace_strong_guarantee_witness :
    ∃ s, Vector.ReAllocateEmplaceThrow (⟨[some 1, some 2], 2⟩ : Vector Nat) 1 9 1 =
        Except.error (⟨[some 1, some 2], 2⟩, s) ∧
      s.getD 1 none = none :=
  C2_realloc_emplace_strong_guarantee ⟨[some 1, some 2], 2⟩ 1 9 1 (by decide)
    (by decide) (by decide)

/-- Claim C3 counterexample: the claim says move *assignment* leaves the
moved-from source with size 0, but the implementation swaps: after
`a = move(b)` with `a = [5]` and `b = [7, 8]`, the source `b` holds `a`'s old
state and has size 1, which is positive. -/
theorem C3_counterexample_move_assign_source_nonempty :
    ((Vector.moveAssign (⟨[some 5], 1⟩ : Vector Nat)
        ⟨[some 7, some 8], 2⟩ false).2.size_ = 0 ↔ False) ∧
    (Vector.moveAssign (⟨[some 5], 1⟩ : Vector Nat)
        ⟨[some 7, some 8], 2⟩ false).2.size_ = 1 :=
  ⟨iff_false_intro (by decide), by decide⟩

/-- Claim C3 (amended): move construction transfers the arena and size and
leaves the source empty (size 0, no elements); move assignment *exchanges*
the two states, so the destination receives the source's arena and size while
the moved-from source is left with the destination's previous state — size 0
exactly when the destination was empty, not in general. -/
theorem C3_move_construction_empties_assignment_swaps
    {α : Type} (other a b : Vector α) :
    other.moveCtor.1 = other ∧ other.moveCtor.2.size_ = 0 ∧
    other.moveCtor.2.elems = [] ∧ a.moveAssign b false = (b, a) :=
  ⟨rfl, rfl, rfl, rfl⟩

/-- Claim C4 (code bug): arena move *construction* nulls the source, but move
assignment's source text destroys nothing (the pseudo-destructor call
`buffer_.~RawMemory()` on the pointer member is ill-formed if instantiated, a
no-op at best), zeroes `capacity_` and swaps — so the moved-from arena ends
with the destination's old non-null buffer at capacity 0, violating the
invariant `address non-null iff capacity > 0`.  At lhs `(addr 100, cap 1)`,
rhs `(addr 200, cap 2)`: the source ends as `(addr 100, cap 0)` — non-null
buffer with zero capacity. -/
theorem C4_raw_move_assign_breaks_invariant :
    RawMemory.moveAssign ⟨some 100, 1⟩ ⟨some 200, 2⟩ false =
      (⟨some 200, 2⟩, ⟨some 100, 0⟩) ∧
    (⟨some 100, 0⟩ : RawMemory).buffer_.isSome = true ∧
    (⟨some 100, 0⟩ : RawMemory).capacity_ = 0 ∧
    RawMemory.moveCtor ⟨some 200, 2⟩ = (⟨some 200, 2⟩, ⟨none, 0⟩) ∧
    RawMemory.Invariant ⟨none, 0⟩ := by
  refine ⟨rfl, rfl, rfl, rfl, ?_⟩
  simp [RawMemory.Invariant]

/-- Claim C5: `PushBack`/`EmplaceBack` appends exactly one element, increments
the size, and grows the capacity to double the old capacity (1 from 0) exactly
when the vector was full; from the empty vector three `EmplaceBack` calls give
capacities 1, 2, 4 and the sequence 1, 2, 3. -/
theorem C5_emplace_back_growth (v : Vector Nat) (x : Nat)
    (hsz : v.size_ ≤ v.Capacity) :
    emplaceBackPost v x ∧ emplaceBackScenario := by
  constructor
  · refine ⟨elems_EmplaceBack v x hsz, ?_, ?_⟩
    · by_cases hfull : v.size_ = v.data_.length
      · simp only [Vector.EmplaceBack, if_pos hfull]
      · simp only [Vector.EmplaceBack, if_neg hfull]
    · by_cases hfull : v.size_ = v.data_.length
      · simp only [Vector.EmplaceBack, if_pos hfull, Vector.Capacity,
          length_copyFrom, List.length_set, List.length_replicate]
        rw [← hfull]
        by_cases h0 : v.size_ = 0
        · rw [if_pos h0, if_pos h0]
        · rw [if_neg h0, if_neg h0]
          omega
      · simp only [Vector.EmplaceBack, if_neg hfull, Vector.Capacity,
          List.length_set]
  · unfold emplaceBackScenario
    decide

/-- Claim C5 witness: on the full one-element vector `[1]`, `EmplaceBack 7`
appends 7, sets size 2 and doubles the capacity to 2. -/
theorem C5_emplace_back_growth_witness :
    emplaceBackPost (⟨[some 1], 1⟩ : Vector Nat) 7 ∧ emplaceBackScenario :=
  C5_emplace_back_growth ⟨[some 1], 1⟩ 7 (by decide)

/-- Claim C6: `Reserve n` with `n ≤ Capacity()` is a no-op — it takes the
early-return branch, so the whole state (capacity, size, elements, arena) is
returned unchanged and no new arena is allocated. -/
theorem C6_reserve_noop (v : Vector Nat) (n : Nat) (h : n ≤ v.Capacity) :
    v.Reserve n = v := by
  rw [Vector.Reserve, if_pos (show n ≤ v.data_.length from h)]

/-- Claim C6 witness: `Reserve 2` on a vector of capacity 2 and size 1
returns it unchanged. -/
theorem C6_reserve_noop_witness :
    Vector.Reserve (⟨[some 3, none], 1⟩ : Vector Nat) 2 = ⟨[some 3, none], 1⟩ :=
  C6_reserve_noop ⟨[some 3, none], 1⟩ 2 (by decide)

/-- Claim C7: every vector reachable by a sequence of public operations
satisfies the container invariant: `size ≤ capacity`, slots `[0, size)` hold
live elements, slots `[size, capacity)` are uninitialized. -/
theorem C7_reachable_invariant {α : Type} [Inhabited α] (v : Vector α)
    (h : Reachable v) : v.Inv := by
  induction h with
  | empty => exact inv_empty
  | sized n => exact inv_sized n
  | copy _ ih => exact inv_copyCtor _ ih
  | moveNew _ ih => exact ih
  | moveOld _ _ => exact inv_empty
  | assignCopy _ _ iha ihb => exact inv_copyAssign _ _ iha ihb
  | assignCopySelf _ ih => exact ih
  | assignMoveDst _ _ iha ihb => exact ihb
  | assignMoveSrc _ _ iha ihb => exact iha
  | assignMoveSelf _ ih => exact ih
  | swapFst _ _ iha ihb => exact ihb
  | swapSnd _ _ iha ihb => exact iha
  | reserve n _ ih => exact inv_Reserve _ n ih
  | resize n _ ih => exact inv_Resize _ n ih
  | push x _ ih => exact inv_EmplaceBack _ x ih
  | pop _ ih => exact inv_PopBack _ ih
  | emplace count x _ hc ih => exact inv_Emplace _ count x ih hc
  | erase count _ hc ih => exact inv_Erase _ count ih hc

/-- Claim C7 witness: the vector obtained by one `EmplaceBack` on the empty
vector is reachable and satisfies the invariant. -/
theorem C7_reachable_invariant_witness :
    (Vector.EmplaceBack (⟨[], 0⟩ : Vector Nat) 5).1.Inv :=
  C7_reachable_invariant _ (Reachable.push 5 Reachable.empty)

/-- Claim C8: self-assignment is an identity — both `v = v` (copy assignment)
and `v = move(v)` (move assignment) take the `this != &rhs` early exit and
leave the object's state unchanged. -/
theorem C8_self_assignment_identity {α : Type} (v : Vector α) :
    v.copyAssign v true = v ∧ v.moveAssign v true = (v, v) :=
  ⟨rfl, rfl⟩

/-- Claim C9: the shrinking operations — `PopBack`, `Resize n` with
`n ≤ size`, and `Erase` — never change the capacity. -/
theorem C9_shrink_keeps_capacity (v : Vector Nat) (n count : Nat)
    (hn : n ≤ v.size_) (hc : count < v.size_) :
    v.PopBack.Capacity = v.Capacity ∧ (v.Resize n).Capacity = v.Capacity ∧
    (v.Erase count).1.Capacity = v.Capacity := by
  refine ⟨?_, ?_, ?_⟩
  · rw [Vector.PopBack]; split
    · simp [Vector.Capacity, List.length_set]
    · rfl
  · rw [Vector.Resize, if_neg (by omega)]
    simp [Vector.Capacity, length_fillRange]
  · simp only [Vector.Erase, Vector.PopBack, moveBackward]
    rw [if_pos (show 0 < v.size_ by omega)]
    simp [Vector.Capacity, List.length_set, length_moveBackwardGo]

/-- Claim C9 witness: on the vector `[1, 2]` of capacity 3, `PopBack`,
`Resize 1` and `Erase` at position 0 all keep the capacity at 3. -/
theorem C9_shrink_keeps_capacity_witness :
    (⟨[some 1, some 2, none], 2⟩ : Vector Nat).PopBack.Capacity =
      (⟨[some 1, some 2, none], 2⟩ : Vector Nat).Capacity ∧
    ((⟨[some 1, some 2, none], 2⟩ : Vector Nat).Resize 1).Capacity =
      (⟨[some 1, some 2, none], 2⟩ : Vector Nat).Capacity ∧
    ((⟨[some 1, some 2, none], 2⟩ : Vector Nat).Erase 0).1.Capacity =
      (⟨[some 1, some 2, none], 2⟩ : Vector Nat).Capacity :=
  C9_shrink_keeps_capacity ⟨[some 1, some 2, none], 2⟩ 1 0 (by decide) (by decide)

/-- Claim C10: `Vector::Swap` exchanges the two objects' whole observable
states (arena, hence capacity and elements, and size) and involves nothing
that can fail. -/
theorem C10_swap_exchanges_states {α : Type} (a b : Vector α) :
    a.Swap b = (b, a) :=
  rfl

end Cpp
